import Mathlib

/-!
Verification model of the sucredb storage layer (src/storage.rs) and the
fabric message family (src/fabric_msg.rs).

Byte strings are lists of naturals; big-endian machine-integer encodings
reduce each digit modulo 256, which makes the encoding functions total and
makes the u16/u64 wrap-around of the source arithmetic explicit.  The two
RocksDB column families are modelled as association lists of
(physical key, value) pairs; the engine presents keys to iterators in
strictly ascending bytewise-lexicographic order, captured by the cfSorted
predicate.  A Rust panic (a failing unwrap, a failing assert, or an
unreachable arm) is modelled as the value none of an Option result.
-/

abbrev Bytes := List Nat

/-- Big-endian fixed-width encoding: w bytes, most significant first.
Models the byteorder write_u16 and write_u64 calls with BigEndian; each
digit is reduced modulo 256, so values out of range wrap exactly as the
machine integers of the source do. -/
def beBytes : Nat → Nat → Bytes
  | 0, _ => []
  | w + 1, n => n / 256 ^ w % 256 :: beBytes w n

/-- Numeric value of a big-endian byte string, as read_u64 decodes it. -/
def beVal : Bytes → Nat
  | [] => 0
  | b :: rest => b * 256 ^ rest.length + beVal rest

/-- Strict bytewise lexicographic order: the default RocksDB comparator. -/
def lexLt : Bytes → Bytes → Bool
  | _, [] => false
  | [], _ :: _ => true
  | a :: as, b :: bs => if a < b then true else if b < a then false else lexLt as bs

/-- Reflexive bytewise lexicographic order. -/
def lexLe (a b : Bytes) : Bool := !lexLt b a

/-- A column family as the engine presents it: physical keys with values. -/
abbrev CF := List (Bytes × Bytes)

/-- Point lookup in a column family. -/
def cfGet : CF → Bytes → Option Bytes
  | [], _ => none
  | (k2, v) :: rest, k => if k2 = k then some v else cfGet rest k

/-- Put: insert a key or overwrite it in place, keeping ascending order. -/
def cfPut : CF → Bytes → Bytes → CF
  | [], k, v => [(k, v)]
  | (k2, v2) :: rest, k, v =>
    if lexLt k k2 then (k, v) :: (k2, v2) :: rest
    else if k = k2 then (k, v) :: rest
    else (k2, v2) :: cfPut rest k v

/-- Delete a key if present. -/
def cfDel : CF → Bytes → CF
  | [], _ => []
  | (k2, v2) :: rest, k => if k2 = k then rest else (k2, v2) :: cfDel rest k

/-- Keys of a column family are strictly ascending, hence pairwise distinct:
this is the order in which the engine feeds keys to forward iterators. -/
def cfSorted (cf : CF) : Prop := List.Pairwise (fun a b => lexLt a.1 b.1 = true) cf

/-- The build_key codec of storage.rs: the 2-byte big-endian namespace id
followed by the user key, assembled in a 512-byte stack buffer.  A user key
longer than 510 bytes makes the write_all of the source return an error and
the unwrap on it panic; there is no fallback path, modelled by none. -/
def build_key (num : Nat) (key : Bytes) : Option Bytes :=
  if key.length ≤ 510 then some (beBytes 2 num ++ key) else none

/-- The build_log_key codec of storage.rs: namespace id, log prefix and
sequence number, all big-endian, 18 bytes in total (fits its buffer). -/
def build_log_key (num p s : Nat) : Bytes :=
  beBytes 2 num ++ beBytes 8 p ++ beBytes 8 s

/-- The shared engine state: main (default) and log column families. -/
structure DB where
  main : CF
  log : CF
deriving DecidableEq

/-- The three operations a StorageBatch offers: put into the main column
family, put into the log column family, and delete from the main column
family.  The source has no log-delete operation. -/
inductive BatchOp where
  | set (key value : Bytes)
  | log_set (p s : Nat) (value : Bytes)
  | del (key : Bytes)
deriving DecidableEq

/-- One write-batch record applied to the state: StorageBatch::set,
StorageBatch::log_set and StorageBatch::del each encode the physical key
exactly as the point operations do.  The none result is the key-encoding
panic for over-long user keys. -/
def applyBatchOp (num : Nat) (db : DB) : BatchOp → Option DB
  | .set k v => (build_key num k).map fun pk => { db with main := cfPut db.main pk v }
  | .log_set p s v => some { db with log := cfPut db.log (build_log_key num p s) v }
  | .del k => (build_key num k).map fun pk => { db with main := cfDel db.main pk }

/-- Storage::batch_write: the accumulated operations are applied
atomically, in insertion order. -/
def batch_write (num : Nat) (db : DB) : List BatchOp → Option DB
  | [] => some db
  | op :: rest => (applyBatchOp num db op).bind fun db2 => batch_write num db2 rest

/-- Storage::get: a point read in the main column family.  The outer
Option is the encoding panic for over-long keys; the inner Option converts
absence of the key into a successful None. -/
def Storage.get (db : DB) (num : Nat) (key : Bytes) : Option (Option Bytes) :=
  (build_key num key).map fun pk => cfGet db.main pk

/-- Storage::log_get: a point read in the log column family. -/
def Storage.log_get (db : DB) (num p s : Nat) : Option Bytes :=
  cfGet db.log (build_log_key num p s)

/-- Storage::set: a single-operation batch committed synchronously. -/
def Storage.set (db : DB) (num : Nat) (key value : Bytes) : Option DB :=
  batch_write num db [BatchOp.set key value]

/-- Storage::del: a single-operation batch committed synchronously. -/
def Storage.del (db : DB) (num : Nat) (key : Bytes) : Option DB :=
  batch_write num db [BatchOp.del key]

/-- The per-key delete sweep of Storage::clear: every key in the half-open
range from lo (inclusive) to hi (exclusive) is deleted; the preceding
delete_file_in_range_cf fast path removes only whole files inside the same
range, so the logical effect is subsumed by this sweep. -/
def cfClearRange (cf : CF) (lo hi : Bytes) : CF :=
  cf.filter fun e => !(lexLe lo e.1 && lexLt e.1 hi)

/-- Storage::clear: both column families are swept over the range from
be16(num) to be16(num + 1).  The source computes num + 1 directly on the
u16 namespace id, so at num = 0xFFFF the upper bound wraps around to
be16(0) (release mode; a debug build panics on the overflow instead), which
beBytes reproduces digit-wise. -/
def Storage.clear (db : DB) (num : Nat) : DB :=
  { main := cfClearRange db.main (beBytes 2 num) (beBytes 2 (num + 1)),
    log := cfClearRange db.log (beBytes 2 num) (beBytes 2 (num + 1)) }

/-- Storage::iterator: the cursor seeks to the 2-byte namespace id with
prefix_same_as_start set, so it yields exactly the keys whose first two
bytes equal be16(num), in engine (ascending) order, and StorageIter::next
strips the 2-byte namespace from each yielded key. -/
def Storage.iterator (db : DB) (num : Nat) : List (Bytes × Bytes) :=
  (db.main.filter fun e => decide (e.1.take 2 = beBytes 2 num)).map
    fun e => (e.1.drop 2, e.2)

/-- Storage::log_iterator: the cursor seeks to build_log_key(num, p, start)
with an exclusive iterate_upper_bound of be16(num) followed by be64(p + 1);
LogStorageIter::next decodes each 18-byte key back into its (prefix, seq)
pair with big-endian reads at offsets 2 and 10.  The source computes p + 1
on a u64, so p = u64::MAX wraps the upper bound to prefix 0 (release mode;
a debug build panics), again reproduced by beBytes digit-wise. -/
def Storage.log_iterator (db : DB) (num p start : Nat) : List ((Nat × Nat) × Bytes) :=
  (db.log.filter fun e =>
      lexLe (build_log_key num p start) e.1 &&
        lexLt e.1 (beBytes 2 num ++ beBytes 8 (p + 1))).map
    fun e => ((beVal ((e.1.drop 2).take 8), beVal (e.1.drop 10)), e.2)

/-- Storage-level operations that can be interleaved between a write and a
later read: committing a batch against some namespace, or clearing a whole
namespace. -/
inductive StoreOp where
  | batch (num : Nat) (ops : List BatchOp)
  | clearNs (num : Nat)

def applyStoreOp (db : DB) : StoreOp → Option DB
  | .batch num ops => batch_write num db ops
  | .clearNs num => some (Storage.clear db num)

def applyStoreOps (db : DB) : List StoreOp → Option DB
  | [] => some db
  | op :: rest => (applyStoreOp db op).bind fun db2 => applyStoreOps db2 rest

/-- Whether a batch operation writes or deletes the main-CF user key k. -/
def BatchOp.touchesKey (k : Bytes) : BatchOp → Prop
  | .set k2 _ => k2 = k
  | .log_set _ _ _ => False
  | .del k2 => k2 = k

/-- Whether a storage-level operation mutates user key k of namespace num:
a batch against the same namespace containing a set or del of k, or a
clear of the same namespace. -/
def StoreOp.mutates (num : Nat) (k : Bytes) : StoreOp → Prop
  | .batch n ops => n = num ∧ ∃ op ∈ ops, BatchOp.touchesKey k op
  | .clearNs n => n = num

/-- Namespace ids are u16 in the source. -/
def StoreOp.wfNum : StoreOp → Prop
  | .batch n _ => n < 65536
  | .clearNs n => n < 65536

/-- Batch operations carry u64 log coordinates and user keys that fit the
512-byte key buffer, as the Rust types enforce. -/
def BatchOp.wf : BatchOp → Prop
  | .set k _ => k.length ≤ 510
  | .log_set p s _ => p < 2 ^ 64 ∧ s < 2 ^ 64
  | .del k => k.length ≤ 510

/-- Every physical log key is an 18-byte build_log_key image of u16/u64
coordinates; this is the only shape the write path can produce. -/
def logKeyWf (k : Bytes) : Prop :=
  ∃ n p s, n < 65536 ∧ p < 2 ^ 64 ∧ s < 2 ^ 64 ∧ k = build_log_key n p s

def logWf (cf : CF) : Prop := ∀ e ∈ cf, logKeyWf e.1

/-- Rust unwrap on an engine result: ok passes the payload through, an
engine error aborts the process (a panic), modelled as none. -/
def rustUnwrap {α : Type} : Except Nat α → Option α
  | .ok a => some a
  | .error _ => none

/-- Storage::get engine-result handling: db.get_cf(..).unwrap() followed by
r.map(callback).  Absence of the key is a successful None inside the ok
payload; an engine error hits the unwrap and panics. -/
def getEngineOutcome (r : Except Nat (Option Bytes)) : Option (Option Bytes) :=
  rustUnwrap r

/-- Storage::batch_write engine-result handling: db.write(wb).unwrap(). -/
def batchWriteEngineOutcome (r : Except Nat Unit) : Option Unit :=
  rustUnwrap r

abbrev VNodeId := Nat
abbrev NodeId := Nat
abbrev Cookie := Nat × Nat

/-- Opaque causal-context collaborator carried by DHTAE. -/
structure VersionVector where
  entries : List (NodeId × Nat)

/-- Opaque causal-context collaborator carried by the sync messages. -/
structure BitmappedVersionVector where
  entries : List (NodeId × Nat)

/-- Opaque per-key conflict-container value. -/
structure Cube where
  payload : Bytes

inductive FabricError where
  | NoRoute
  | CookieNotFound
  | BadVNodeStatus
  | NotReady
  | SyncInterrupted
  | StorageError
deriving DecidableEq

inductive FabricMsgType where
  | Crud
  | Synch
  | DHT
  | Unknown
deriving DecidableEq

structure MsgRemoteGet where
  vnode : VNodeId
  cookie : Cookie
  key : Bytes

structure MsgRemoteGetAck where
  vnode : VNodeId
  cookie : Cookie
  result : Except FabricError Cube

structure MsgRemoteSet where
  vnode : VNodeId
  cookie : Cookie
  key : Bytes
  value : Cube
  reply : Bool
  reply_result : Bool

structure MsgRemoteSetAck where
  vnode : VNodeId
  cookie : Cookie
  result : Except FabricError (Option Cube)

structure MsgSyncStart where
  vnode : VNodeId
  cookie : Cookie
  clocks_in_peer : BitmappedVersionVector
  target : Option NodeId

structure MsgSyncSend where
  vnode : VNodeId
  cookie : Cookie
  seq : Nat
  key : Bytes
  value : Cube

structure MsgSyncAck where
  vnode : VNodeId
  cookie : Cookie
  seq : Nat

structure MsgSyncFin where
  vnode : VNodeId
  cookie : Cookie
  result : Except FabricError BitmappedVersionVector

/-- The closed fabric message union of fabric_msg.rs. -/
inductive FabricMsg where
  | RemoteGet (m : MsgRemoteGet)
  | RemoteGetAck (m : MsgRemoteGetAck)
  | RemoteSet (m : MsgRemoteSet)
  | RemoteSetAck (m : MsgRemoteSetAck)
  | SyncStart (m : MsgSyncStart)
  | SyncSend (m : MsgSyncSend)
  | SyncAck (m : MsgSyncAck)
  | SyncFin (m : MsgSyncFin)
  | DHTAE (vv : VersionVector)
  | DHTSync (b : Bytes)
  | Unknown

/-- FabricMsg::get_type: the category is read off the variant tag; the
catch-all arm is unreachable! which panics if Unknown is ever categorized,
modelled as none. -/
def FabricMsg.get_type : FabricMsg → Option FabricMsgType
  | .RemoteGet _ => some .Crud
  | .RemoteGetAck _ => some .Crud
  | .RemoteSet _ => some .Crud
  | .RemoteSetAck _ => some .Crud
  | .SyncStart _ => some .Synch
  | .SyncSend _ => some .Synch
  | .SyncAck _ => some .Synch
  | .SyncFin _ => some .Synch
  | .DHTSync _ => some .DHT
  | .DHTAE _ => some .DHT
  | .Unknown => none

/-! Order and encoding lemmas. -/

theorem lexLt_nil_right (a : Bytes) : lexLt a [] = false := by
  cases a <;> rfl

theorem lexLt_cons_cons (a b : Nat) (as bs : Bytes) :
    lexLt (a :: as) (b :: bs) =
      (if a < b then true else if b < a then false else lexLt as bs) := rfl

theorem lexLt_irrefl (a : Bytes) : lexLt a a = false := by
  induction a with
  | nil => rfl
  | cons x xs ih => simp [lexLt_cons_cons, ih]

theorem beBytes_length (w n : Nat) : (beBytes w n).length = w := by
  induction w generalizing n with
  | zero => rfl
  | succ w ih => simp [beBytes, ih]

theorem beBytes_mod (w n : Nat) : beBytes w (n % 256 ^ w) = beBytes w n := by
  induction w generalizing n with
  | zero => rfl
  | succ w ih =>
    have hhead : n % 256 ^ (w + 1) / 256 ^ w % 256 = n / 256 ^ w % 256 := by
      rw [pow_succ, Nat.mod_mul_right_div_self]
      generalize n / 256 ^ w = t
      omega
    have htail : beBytes w (n % 256 ^ (w + 1)) = beBytes w n :=
      calc beBytes w (n % 256 ^ (w + 1))
          = beBytes w (n % 256 ^ (w + 1) % 256 ^ w) := (ih _).symm
        _ = beBytes w (n % 256 ^ w) := by
            rw [Nat.mod_mod_of_dvd _ (pow_dvd_pow 256 (Nat.le_succ w))]
        _ = beBytes w n := ih n
    simp only [beBytes]
    rw [hhead, htail]

theorem beVal_beBytes (w n : Nat) : beVal (beBytes w n) = n % 256 ^ w := by
  induction w generalizing n with
  | zero => simp [beBytes, beVal, Nat.mod_one]
  | succ w ih =>
    simp only [beBytes, beVal, beBytes_length, ih]
    rw [pow_succ, Nat.mod_mul]
    ring

theorem beBytes_lt (w m n : Nat) (hm : m < 256 ^ w) (hn : n < 256 ^ w) :
    lexLt (beBytes w m) (beBytes w n) = decide (m < n) := by
  induction w generalizing m n with
  | zero =>
    have hm0 : m = 0 := by simpa using hm
    have hn0 : n = 0 := by simpa using hn
    subst hm0; subst hn0
    rfl
  | succ w ih =>
    have hpos : 0 < 256 ^ w := pow_pos (by norm_num) w
    have hmd : m / 256 ^ w < 256 := by
      apply (Nat.div_lt_iff_lt_mul hpos).2
      calc m < 256 ^ (w + 1) := hm
        _ = 256 * 256 ^ w := by ring
    have hnd : n / 256 ^ w < 256 := by
      apply (Nat.div_lt_iff_lt_mul hpos).2
      calc n < 256 ^ (w + 1) := hn
        _ = 256 * 256 ^ w := by ring
    simp only [beBytes, lexLt_cons_cons, Nat.mod_eq_of_lt hmd, Nat.mod_eq_of_lt hnd]
    by_cases h1 : m / 256 ^ w < n / 256 ^ w
    · rw [if_pos h1]
      have hlt : m < n := by
        by_contra hc
        push_neg at hc
        have hdle : n / 256 ^ w ≤ m / 256 ^ w := Nat.div_le_div_right hc
        omega
      simp [hlt]
    · rw [if_neg h1]
      by_cases h2 : n / 256 ^ w < m / 256 ^ w
      · rw [if_pos h2]
        have hnlt : ¬ m < n := by
          intro hc
          have hdle : m / 256 ^ w ≤ n / 256 ^ w := Nat.div_le_div_right (Nat.le_of_lt hc)
          omega
        simp [hnlt]
      · rw [if_neg h2]
        have heq : m / 256 ^ w = n / 256 ^ w := by omega
        rw [← beBytes_mod w m, ← beBytes_mod w n,
          ih _ _ (Nat.mod_lt _ hpos) (Nat.mod_lt _ hpos)]
        have h3 := Nat.div_add_mod m (256 ^ w)
        have h4 := Nat.div_add_mod n (256 ^ w)
        rw [heq] at h3
        have h5 : (m % 256 ^ w < n % 256 ^ w) ↔ (m < n) := by
          generalize 256 ^ w * (n / 256 ^ w) = t at h3 h4
          generalize m % 256 ^ w = a at h3 ⊢
          generalize n % 256 ^ w = b at h4 ⊢
          omega
        simp only [h5]

theorem beBytes_inj {w m n : Nat} (hm : m < 256 ^ w) (hn : n < 256 ^ w)
    (h : beBytes w m = beBytes w n) : m = n := by
  have h2 := congrArg beVal h
  rwa [beVal_beBytes, beVal_beBytes, Nat.mod_eq_of_lt hm, Nat.mod_eq_of_lt hn] at h2

theorem lexLt_append_same (p a b : Bytes) : lexLt (p ++ a) (p ++ b) = lexLt a b := by
  induction p with
  | nil => rfl
  | cons x xs ih => simp [lexLt_cons_cons, ih]

theorem lexLt_append_pairs (a : Bytes) :
    ∀ b x y : Bytes, a.length = b.length →
      lexLt (a ++ x) (b ++ y) =
        (if lexLt a b then true else if lexLt b a then false else lexLt x y) := by
  induction a with
  | nil =>
    intro b x y hb
    have hbnil : b = [] := by
      cases b with
      | nil => rfl
      | cons u v => simp at hb
    subst hbnil
    simp [lexLt]
  | cons h t ih =>
    intro b x y hb
    cases b with
    | nil => simp at hb
    | cons h2 t2 =>
      simp only [List.cons_append, lexLt_cons_cons]
      rw [ih t2 x y (by simpa using hb)]
      by_cases c1 : h < h2
      · have c2 : ¬ h2 < h := by omega
        simp [c1, c2]
      · by_cases c2 : h2 < h
        · simp [c1, c2]
        · simp [c1, c2]

theorem lexLt_append_left (a b x : Bytes) (h : a.length = b.length) :
    lexLt (a ++ x) b = lexLt a b := by
  have h2 := lexLt_append_pairs a b x [] h
  rw [List.append_nil, lexLt_nil_right] at h2
  rw [h2]
  by_cases c1 : lexLt a b <;> simp [c1]

/-! Column-family lemmas. -/

theorem cfGet_cfPut_self (cf : CF) (k v : Bytes) : cfGet (cfPut cf k v) k = some v := by
  induction cf with
  | nil => simp [cfPut, cfGet]
  | cons e rest ih =>
    obtain ⟨k2, v2⟩ := e
    by_cases h1 : lexLt k k2
    · simp [cfPut, h1, cfGet]
    · by_cases h2 : k = k2
      · subst h2
        simp [cfPut, lexLt_irrefl, cfGet]
      · have h2s : ¬ (k2 = k) := fun hx => h2 hx.symm
        simp [cfPut, h1, h2, cfGet, h2s, ih]

theorem cfGet_cfPut_ne (cf : CF) (k k3 v : Bytes) (hne : k3 ≠ k) :
    cfGet (cfPut cf k v) k3 = cfGet cf k3 := by
  have hks : ¬ (k = k3) := fun hx => hne hx.symm
  induction cf with
  | nil => simp [cfPut, cfGet, hks]
  | cons e rest ih =>
    obtain ⟨k2, v2⟩ := e
    by_cases h1 : lexLt k k2
    · simp [cfPut, h1, cfGet, hks]
    · by_cases h2 : k = k2
      · subst h2
        simp [cfPut, h1, cfGet, hks]
      · simp [cfPut, h1, h2, cfGet, ih]

theorem cfGet_cfDel_ne (cf : CF) (k k3 : Bytes) (hne : k3 ≠ k) :
    cfGet (cfDel cf k) k3 = cfGet cf k3 := by
  induction cf with
  | nil => simp [cfDel]
  | cons e rest ih =>
    obtain ⟨k2, v2⟩ := e
    by_cases h1 : k2 = k
    · subst h1
      have h2 : ¬ (k2 = k3) := fun hx => hne hx.symm
      simp [cfDel, cfGet, h2]
    · simp [cfDel, h1, cfGet, ih]

theorem cfGet_eq_some_of_mem (cf : CF) (k v : Bytes) (hs : cfSorted cf)
    (hm : (k, v) ∈ cf) : cfGet cf k = some v := by
  induction cf with
  | nil => simp at hm
  | cons e rest ih =>
    obtain ⟨k2, v2⟩ := e
    rw [cfSorted, List.pairwise_cons] at hs
    rcases List.mem_cons.1 hm with h | h
    · have hk : k = k2 := congrArg Prod.fst h
      have hv : v = v2 := congrArg Prod.snd h
      subst hk; subst hv
      simp [cfGet]
    · have hk2 : k2 ≠ k := by
        intro hx
        subst hx
        have := hs.1 (k2, v) h
        simp [lexLt_irrefl] at this
      simp [cfGet, hk2]
      exact ih hs.2 h

theorem mem_of_cfGet_eq_some (cf : CF) (k v : Bytes) (h : cfGet cf k = some v) :
    (k, v) ∈ cf := by
  induction cf with
  | nil => simp [cfGet] at h
  | cons e rest ih =>
    obtain ⟨k2, v2⟩ := e
    by_cases h2 : k2 = k
    · subst h2
      simp [cfGet] at h
      subst h
      exact List.mem_cons_self _ _
    · simp [cfGet, h2] at h
      exact List.mem_cons_of_mem _ (ih h)

theorem cfGet_cfClearRange_miss (cf : CF) (lo hi k : Bytes)
    (h : ¬(lexLe lo k = true ∧ lexLt k hi = true)) :
    cfGet (cfClearRange cf lo hi) k = cfGet cf k := by
  induction cf with
  | nil => rfl
  | cons e rest ih =>
    obtain ⟨k2, v2⟩ := e
    by_cases hk : k2 = k
    · subst hk
      cases hlo : lexLe lo k2 <;> cases hhi : lexLt k2 hi <;>
        simp_all [cfClearRange, List.filter_cons, cfGet]
    · cases hlo : lexLe lo k2 <;> cases hhi : lexLt k2 hi <;>
        simp_all [cfClearRange, List.filter_cons, cfGet, hk]

/-! Physical-key decomposition lemmas. -/

theorem be2_append_inj {m n : Nat} {a b : Bytes} (hm : m < 65536) (hn : n < 65536)
    (h : beBytes 2 m ++ a = beBytes 2 n ++ b) : m = n ∧ a = b := by
  have h1 : beBytes 2 m = beBytes 2 n := by
    have h3 := congrArg (List.take 2) h
    rwa [List.take_left' (beBytes_length 2 m), List.take_left' (beBytes_length 2 n)] at h3
  have h2 : a = b := by
    have h3 := congrArg (List.drop 2) h
    rwa [List.drop_left' (beBytes_length 2 m), List.drop_left' (beBytes_length 2 n)] at h3
  refine ⟨beBytes_inj ?_ ?_ h1, h2⟩
  · norm_num
    exact hm
  · norm_num
    exact hn

theorem decode_build_log_key (n p s : Nat) :
    ((build_log_key n p s).drop 2).take 8 = beBytes 8 p ∧
    (build_log_key n p s).drop 10 = beBytes 8 s := by
  unfold build_log_key
  constructor
  · rw [List.append_assoc, List.drop_left' (beBytes_length 2 n)]
    rw [List.take_left' (beBytes_length 8 p)]
  · rw [List.append_assoc, show (10 : Nat) = 2 + 8 from rfl, ← List.drop_drop,
      List.drop_left' (beBytes_length 2 n), List.drop_left' (beBytes_length 8 p)]

theorem logKey_lt_iff (a b c d e f : Nat)
    (ha : a < 65536) (hd : d < 65536) (hb : b < 2 ^ 64) (he : e < 2 ^ 64)
    (hc : c < 2 ^ 64) (hf : f < 2 ^ 64) :
    (lexLt (build_log_key a b c) (build_log_key d e f) = true) ↔
      (a < d ∨ (a = d ∧ b < e) ∨ (a = d ∧ b = e ∧ c < f)) := by
  have e2 : (65536 : Nat) = 256 ^ 2 := by norm_num
  have e8 : (2 : Nat) ^ 64 = 256 ^ 8 := by norm_num
  rw [e2] at ha hd
  rw [e8] at hb he hc hf
  unfold build_log_key
  rw [List.append_assoc, List.append_assoc,
    lexLt_append_pairs _ _ _ _ (by simp [beBytes_length]),
    lexLt_append_pairs _ _ _ _ (by simp [beBytes_length]),
    beBytes_lt 2 a d ha hd, beBytes_lt 2 d a hd ha,
    beBytes_lt 8 b e hb he, beBytes_lt 8 e b he hb,
    beBytes_lt 8 c f hc hf]
  simp only [decide_eq_true_eq]
  split_ifs <;> simp <;> omega

theorem mainKey_notin_clearRange (n num : Nat) (k : Bytes) (hn : n < 65536)
    (hnum : num < 65536) (hne : num ≠ n) :
    ¬(lexLe (beBytes 2 n) (beBytes 2 num ++ k) = true ∧
      lexLt (beBytes 2 num ++ k) (beBytes 2 (n + 1)) = true) := by
  have e2 : (65536 : Nat) = 256 ^ 2 := by norm_num
  rintro ⟨h1, h2⟩
  rw [lexLe, Bool.not_eq_true'] at h1
  have hl1 : lexLt (beBytes 2 num ++ k) (beBytes 2 n) =
      lexLt (beBytes 2 num) (beBytes 2 n) :=
    lexLt_append_left _ _ _ (by simp [beBytes_length])
  rw [hl1, beBytes_lt 2 num n (e2 ▸ hnum) (e2 ▸ hn)] at h1
  simp only [decide_eq_false_iff_not] at h1
  by_cases hn1 : n + 1 < 65536
  · have hl2 : lexLt (beBytes 2 num ++ k) (beBytes 2 (n + 1)) =
        lexLt (beBytes 2 num) (beBytes 2 (n + 1)) :=
      lexLt_append_left _ _ _ (by simp [beBytes_length])
    rw [hl2, beBytes_lt 2 num (n + 1) (e2 ▸ hnum) (e2 ▸ hn1)] at h2
    simp only [decide_eq_true_eq] at h2
    omega
  · omega

theorem logKey_lt_ub_iff (a b c d e : Nat)
    (ha : a < 65536) (hd : d < 65536) (hb : b < 2 ^ 64) (he : e < 2 ^ 64)
    (_hc : c < 2 ^ 64) :
    (lexLt (build_log_key a b c) (beBytes 2 d ++ beBytes 8 e) = true) ↔
      (a < d ∨ (a = d ∧ b < e)) := by
  have e2 : (65536 : Nat) = 256 ^ 2 := by norm_num
  have e8 : (2 : Nat) ^ 64 = 256 ^ 8 := by norm_num
  rw [e2] at ha hd
  rw [e8] at hb he
  unfold build_log_key
  rw [List.append_assoc,
    lexLt_append_pairs _ _ _ _ (by simp [beBytes_length]),
    lexLt_append_left _ _ _ (by simp [beBytes_length]),
    beBytes_lt 2 a d ha hd, beBytes_lt 2 d a hd ha,
    beBytes_lt 8 b e hb he]
  simp only [decide_eq_true_eq]
  split_ifs <;> simp <;> omega

/-! Claim theorems. -/

/-- C8: FabricMsg::get_type is determined purely by the variant tag.
RemoteGet, RemoteGetAck, RemoteSet and RemoteSetAck map to Crud; SyncStart,
SyncSend, SyncAck and SyncFin map to Synch; DHTAE and DHTSync map to DHT;
the Unknown variant is never categorized: its arm is the unreachable panic,
modelled by the none result. -/
theorem get_type_pure_tag :
    (∀ x, FabricMsg.get_type (.RemoteGet x) = some .Crud) ∧
    (∀ x, FabricMsg.get_type (.RemoteGetAck x) = some .Crud) ∧
    (∀ x, FabricMsg.get_type (.RemoteSet x) = some .Crud) ∧
    (∀ x, FabricMsg.get_type (.RemoteSetAck x) = some .Crud) ∧
    (∀ x, FabricMsg.get_type (.SyncStart x) = some .Synch) ∧
    (∀ x, FabricMsg.get_type (.SyncSend x) = some .Synch) ∧
    (∀ x, FabricMsg.get_type (.SyncAck x) = some .Synch) ∧
    (∀ x, FabricMsg.get_type (.SyncFin x) = some .Synch) ∧
    (∀ x, FabricMsg.get_type (.DHTAE x) = some .DHT) ∧
    (∀ x, FabricMsg.get_type (.DHTSync x) = some .DHT) ∧
    FabricMsg.get_type .Unknown = none :=
  ⟨fun _ => rfl, fun _ => rfl, fun _ => rfl, fun _ => rfl, fun _ => rfl,
    fun _ => rfl, fun _ => rfl, fun _ => rfl, fun _ => rfl, fun _ => rfl, rfl⟩

/-- C6 counterexample: Storage::get and Storage::batch_write unwrap the
engine result, so a concrete engine failure (error code 5 here) aborts with
a panic (the none outcome) instead of reaching the caller as a StorageError
value, contradicting the claimed propagation policy. -/
theorem engine_error_aborts :
    getEngineOutcome (Except.error 5) = none ∧
    batchWriteEngineOutcome (Except.error 5) = none :=
  ⟨rfl, rfl⟩

/-- C6 amended: point reads convert absence of the key into a successful
None result; every engine failure on reads, on set/del and on batch_write
makes the unwrap panic, aborting the process, rather than surfacing a
StorageError value to the caller. -/
theorem point_read_absence_write_panic :
    (∀ r : Option Bytes, getEngineOutcome (Except.ok r) = some r) ∧
    getEngineOutcome (Except.ok none) = some none ∧
    (∀ e : Nat, getEngineOutcome (Except.error e) = none) ∧
    (∀ e : Nat, batchWriteEngineOutcome (Except.error e) = none) :=
  ⟨fun _ => rfl, rfl, fun _ => rfl, fun _ => rfl⟩

set_option maxRecDepth 8192 in
/-- C5 counterexample: a 511-byte user key does not fit the 512-byte key
buffer (2 namespace bytes plus at most 510 key bytes), so build_key's
write_all fails, its unwrap panics, and set on that key panics too: the
codec has no fallback for longer keys. -/
theorem long_key_panics :
    build_key 0 (List.replicate 511 0) = none ∧
    Storage.set { main := [], log := [] } 0 (List.replicate 511 0) [1] = none := by
  constructor <;> rfl

/-- C5 amended: user keys of at most 510 bytes always encode: build_key
yields the 2-byte big-endian namespace id followed by the key, and get,
set, del and batch set/del on such a key never hit the buffer panic.  The
512-byte stack buffer is a hard cap of 510 bytes on user keys, not an
optimization: longer keys panic instead of taking a fallback path. -/
theorem key_cap_510 (num : Nat) (k : Bytes) (h : k.length ≤ 510) :
    build_key num k = some (beBytes 2 num ++ k) ∧
    (∀ db : DB, (Storage.get db num k).isSome = true) ∧
    (∀ (db : DB) (v : Bytes), (Storage.set db num k v).isSome = true) ∧
    (∀ db : DB, (Storage.del db num k).isSome = true) ∧
    (∀ (db : DB) (v : Bytes), (applyBatchOp num db (BatchOp.set k v)).isSome = true) ∧
    (∀ db : DB, (applyBatchOp num db (BatchOp.del k)).isSome = true) := by
  have hb : build_key num k = some (beBytes 2 num ++ k) := by
    unfold build_key
    rw [if_pos h]
  refine ⟨hb, ?_, ?_, ?_, ?_, ?_⟩
  · intro db
    simp [Storage.get, hb]
  · intro db v
    simp [Storage.set, batch_write, applyBatchOp, hb]
  · intro db
    simp [Storage.del, batch_write, applyBatchOp, hb]
  · intro db v
    simp [applyBatchOp, hb]
  · intro db
    simp [applyBatchOp, hb]

/-- Witness for the amended C5 at a concrete short key. -/
theorem key_cap_510_witness :
    build_key 3 [9] = some (beBytes 2 3 ++ [9]) :=
  (key_cap_510 3 [9] (by decide)).1

/-- Contents of namespace 0xFFFF used to exhibit the clear wrap-around
bug: one main key (user key [0]) and one log entry. -/
def dbNsMax : DB :=
  { main := [(beBytes 2 65535 ++ [0], [1])],
    log := [(build_log_key 65535 0 0, [2])] }

/-- C1: the source computes num + 1 directly on the u16 namespace id, so
at namespace 0xFFFF the clear-range upper bound wraps to be16(0) instead of
the lexicographic maximum the spec requires (a debug build panics on the
overflow), making the delete range empty: clear() removes nothing from
namespace 0xFFFF, and both its main key and its log entry survive. -/
theorem clear_nsMax_noop :
    beBytes 2 (65535 + 1) = beBytes 2 0 ∧
    Storage.clear dbNsMax 65535 = dbNsMax ∧
    cfGet (Storage.clear dbNsMax 65535).main (beBytes 2 65535 ++ [0]) = some [1] ∧
    cfGet (Storage.clear dbNsMax 65535).log (build_log_key 65535 0 0) = some [2] := by
  refine ⟨?_, ?_, ?_, ?_⟩ <;> rfl

/-- Log contents used to exhibit the log_iterator upper-bound overflow:
one entry of namespace 3 at the maximal prefix. -/
def dbLogMax : DB :=
  { main := [], log := [(build_log_key 3 (2 ^ 64 - 1) 5, [9])] }

/-- C9: log_iterator computes its exclusive upper bound as p + 1 on a u64.
For p = u64::MAX this overflows: a debug build panics and a release build
wraps the upper-bound prefix to 0, so the iterator yields nothing for the
maximal prefix even though an entry at that prefix with sequence equal to
start is present; for every p below the maximum the bound is p + 1 with no
overflow, so callers must not pass the maximal prefix. -/
theorem log_iterator_max_prefix_overflow :
    beBytes 8 ((2 ^ 64 - 1) + 1) = beBytes 8 0 ∧
    Storage.log_iterator dbLogMax 3 (2 ^ 64 - 1) 5 = [] ∧
    Storage.log_get dbLogMax 3 (2 ^ 64 - 1) 5 = some [9] ∧
    (∀ p : Nat, p + 1 < 2 ^ 64 → beVal (beBytes 8 (p + 1)) = p + 1) := by
  refine ⟨by rfl, by rfl, by rfl, ?_⟩
  intro p hp
  rw [beVal_beBytes]
  apply Nat.mod_eq_of_lt
  calc p + 1 < 2 ^ 64 := hp
    _ = 256 ^ 8 := by norm_num

/-- Witness for C9 at a concrete small prefix. -/
theorem log_iterator_max_prefix_overflow_witness :
    beVal (beBytes 8 6) = 6 :=
  log_iterator_max_prefix_overflow.2.2.2 5 (by norm_num)

/-- C2: namespace isolation.  Writing (k, v) into namespace m leaves get(k)
in a distinct namespace n unchanged: the physical main key of the write is
be16(m) followed by k, the physical key read is be16(n) followed by k, and
the injective 2-byte big-endian namespace id keeps the two keys distinct,
so no two namespaces share a physical key. -/
theorem namespace_isolation (db db2 : DB) (m n : Nat) (k v : Bytes)
    (hm : m < 65536) (hn : n < 65536) (hmn : m ≠ n)
    (hset : Storage.set db m k v = some db2) :
    Storage.get db2 n k = Storage.get db n k := by
  unfold Storage.set at hset
  by_cases hk : k.length ≤ 510
  · have hbk : build_key m k = some (beBytes 2 m ++ k) := by
      unfold build_key
      rw [if_pos hk]
    simp [batch_write, applyBatchOp, hbk] at hset
    have hne : beBytes 2 n ++ k ≠ beBytes 2 m ++ k := by
      intro hx
      exact hmn ((be2_append_inj hn hm hx).1).symm
    have hbkn : build_key n k = some (beBytes 2 n ++ k) := by
      unfold build_key
      rw [if_pos hk]
    subst hset
    simp [Storage.get, hbkn, cfGet_cfPut_ne db.main (beBytes 2 m ++ k) (beBytes 2 n ++ k) v hne]
  · have hbk : build_key m k = none := by
      unfold build_key
      rw [if_neg hk]
    simp [batch_write, applyBatchOp, hbk] at hset

/-- Witness for C2: writing key [5] into namespace 0 leaves the read of
key [5] in namespace 1 unchanged. -/
theorem namespace_isolation_witness :
    Storage.get { main := cfPut [] (beBytes 2 0 ++ [5]) [7], log := ([] : CF) } 1 [5] =
      Storage.get { main := ([] : CF), log := ([] : CF) } 1 [5] :=
  namespace_isolation { main := [], log := [] } _ 0 1 [5] [7]
    (by decide) (by decide) (by decide) rfl

/-- Injectivity of the log-key codec in its prefix and sequence fields for
a fixed namespace, over in-range u64 coordinates. -/
theorem build_log_key_inj_ps {num p s p2 s2 : Nat}
    (hp : p < 2 ^ 64) (hs : s < 2 ^ 64) (hp2 : p2 < 2 ^ 64) (hs2 : s2 < 2 ^ 64)
    (h : build_log_key num p s = build_log_key num p2 s2) : p = p2 ∧ s = s2 := by
  have e8 : (2 : Nat) ^ 64 = 256 ^ 8 := by norm_num
  have h1 : beBytes 8 p = beBytes 8 p2 := by
    have d1 := (decode_build_log_key num p s).1
    have d2 := (decode_build_log_key num p2 s2).1
    rw [← d1, ← d2, h]
  have h2 : beBytes 8 s = beBytes 8 s2 := by
    have d1 := (decode_build_log_key num p s).2
    have d2 := (decode_build_log_key num p2 s2).2
    rw [← d1, ← d2, h]
  exact ⟨beBytes_inj (e8 ▸ hp) (e8 ▸ hp2) h1, beBytes_inj (e8 ▸ hs) (e8 ▸ hs2) h2⟩

/-- C10: a StorageBatch offers no log-delete operation (its only
operations are main-CF put, main-CF delete and log-CF put), so a log entry
(p, s) present before batch_write is still present with the same value
afterwards unless the batch itself overwrote that very log key; log
entries can only be removed by clear(). -/
theorem batch_preserves_log (num p s : Nat) (v : Bytes) (ops : List BatchOp)
    (db db2 : DB)
    (hp : p < 2 ^ 64) (hs : s < 2 ^ 64)
    (hwf : ∀ op ∈ ops, BatchOp.wf op)
    (hnot : ∀ v2, BatchOp.log_set p s v2 ∉ ops)
    (hrun : batch_write num db ops = some db2)
    (hbefore : Storage.log_get db num p s = some v) :
    Storage.log_get db2 num p s = some v := by
  induction ops generalizing db with
  | nil =>
    simp [batch_write] at hrun
    rw [← hrun]
    exact hbefore
  | cons op rest ih =>
    rw [batch_write] at hrun
    obtain ⟨db1, h1, h2⟩ := Option.bind_eq_some.1 hrun
    have hstep : Storage.log_get db1 num p s = some v := by
      cases op with
      | set k2 v2 =>
        rw [applyBatchOp] at h1
        obtain ⟨pk, hpk, hdb1⟩ := Option.map_eq_some'.1 h1
        rw [← hdb1]
        exact hbefore
      | del k2 =>
        rw [applyBatchOp] at h1
        obtain ⟨pk, hpk, hdb1⟩ := Option.map_eq_some'.1 h1
        rw [← hdb1]
        exact hbefore
      | log_set p2 s2 v2 =>
        rw [applyBatchOp] at h1
        injection h1 with h1
        rw [← h1]
        obtain ⟨hp2, hs2⟩ := hwf _ (List.mem_cons_self _ _)
        have hkne : build_log_key num p s ≠ build_log_key num p2 s2 := by
          intro hx
          obtain ⟨hxp, hxs⟩ := build_log_key_inj_ps hp hs hp2 hs2 hx
          subst hxp; subst hxs
          exact hnot v2 (List.mem_cons_self _ _)
        unfold Storage.log_get at hbefore ⊢
        simpa [cfGet_cfPut_ne db.log (build_log_key num p2 s2) (build_log_key num p s) v2 hkne]
          using hbefore
    exact ih db1 (fun o ho => hwf o (List.mem_cons_of_mem _ ho))
      (fun v2 hv2 => hnot v2 (List.mem_cons_of_mem _ hv2)) h2 hstep

/-- Log contents for the C10 witness: one entry at (2, 3) in namespace 1. -/
def dbLogOne : DB :=
  { main := [], log := [(build_log_key 1 2 3, [5])] }

/-- Witness for C10: a batch writing log key (2, 4) leaves the earlier
entry at (2, 3) intact. -/
theorem batch_preserves_log_witness :
    Storage.log_get
      { main := ([] : CF),
        log := cfPut dbLogOne.log (build_log_key 1 2 4) [6] } 1 2 3 = some [5] :=
  batch_preserves_log 1 2 3 [5] [BatchOp.log_set 2 4 [6]] dbLogOne _
    (by norm_num) (by norm_num)
    (by
      intro op hop
      rcases List.mem_cons.1 hop with h | h
      · subst h
        exact ⟨by norm_num, by norm_num⟩
      · simp at h)
    (by intro v2; simp)
    rfl rfl

/-- Clearing one namespace leaves every main key of a different namespace
untouched: the clear range covers exactly the cleared 2-byte prefix. -/
theorem clear_preserves_other_ns (db : DB) (n num : Nat) (k : Bytes)
    (hn : n < 65536) (hnum : num < 65536) (hne : num ≠ n) :
    cfGet (Storage.clear db n).main (beBytes 2 num ++ k) =
      cfGet db.main (beBytes 2 num ++ k) := by
  unfold Storage.clear
  exact cfGet_cfClearRange_miss _ _ _ _ (mainKey_notin_clearRange n num k hn hnum hne)

/-- A batch against namespace n preserves the main-CF entry of user key k
in namespace num, provided the batch contains no set/del of k when n is
num itself. -/
theorem batch_preserves_main_key (n num : Nat) (k : Bytes) (ops : List BatchOp)
    (db db2 : DB) (hn : n < 65536) (hnum : num < 65536)
    (hno : n = num → ∀ op ∈ ops, ¬ BatchOp.touchesKey k op)
    (hrun : batch_write n db ops = some db2) :
    cfGet db2.main (beBytes 2 num ++ k) = cfGet db.main (beBytes 2 num ++ k) := by
  induction ops generalizing db with
  | nil =>
    simp [batch_write] at hrun
    rw [← hrun]
  | cons op rest ih =>
    rw [batch_write] at hrun
    obtain ⟨db1, h1, h2⟩ := Option.bind_eq_some.1 hrun
    have hstep : cfGet db1.main (beBytes 2 num ++ k) =
        cfGet db.main (beBytes 2 num ++ k) := by
      cases op with
      | set k2 v2 =>
        rw [applyBatchOp] at h1
        obtain ⟨pk, hpk, hdb1⟩ := Option.map_eq_some'.1 h1
        unfold build_key at hpk
        by_cases hl : k2.length ≤ 510
        · rw [if_pos hl] at hpk
          injection hpk with hpk
          subst hpk
          have hne : beBytes 2 num ++ k ≠ beBytes 2 n ++ k2 := by
            intro hx
            obtain ⟨hx1, hx2⟩ := be2_append_inj hnum hn hx
            have hto := hno hx1.symm (BatchOp.set k2 v2) (List.mem_cons_self _ _)
            exact hto (show BatchOp.touchesKey k (BatchOp.set k2 v2) from hx2.symm)
          rw [← hdb1]
          exact cfGet_cfPut_ne db.main _ _ v2 hne
        · rw [if_neg hl] at hpk
          cases hpk
      | log_set p2 s2 v2 =>
        rw [applyBatchOp] at h1
        injection h1 with h1
        rw [← h1]
      | del k2 =>
        rw [applyBatchOp] at h1
        obtain ⟨pk, hpk, hdb1⟩ := Option.map_eq_some'.1 h1
        unfold build_key at hpk
        by_cases hl : k2.length ≤ 510
        · rw [if_pos hl] at hpk
          injection hpk with hpk
          subst hpk
          have hne : beBytes 2 num ++ k ≠ beBytes 2 n ++ k2 := by
            intro hx
            obtain ⟨hx1, hx2⟩ := be2_append_inj hnum hn hx
            have hto := hno hx1.symm (BatchOp.del k2) (List.mem_cons_self _ _)
            exact hto (show BatchOp.touchesKey k (BatchOp.del k2) from hx2.symm)
          rw [← hdb1]
          exact cfGet_cfDel_ne db.main _ _ hne
        · rw [if_neg hl] at hpk
          cases hpk
    exact (ih db1 (fun hnn o ho => hno hnn o (List.mem_cons_of_mem _ ho)) h2).trans hstep

/-- A single storage-level operation that does not mutate user key k of
namespace num preserves that key's main-CF entry. -/
theorem storeOp_preserves_key (op : StoreOp) (db db2 : DB) (num : Nat) (k : Bytes)
    (hnum : num < 65536) (hwf : StoreOp.wfNum op) (hmut : ¬ StoreOp.mutates num k op)
    (happ : applyStoreOp db op = some db2) :
    cfGet db2.main (beBytes 2 num ++ k) = cfGet db.main (beBytes 2 num ++ k) := by
  cases op with
  | batch n ops =>
    rw [applyStoreOp] at happ
    refine batch_preserves_main_key n num k ops db db2 hwf hnum ?_ happ
    intro hnn op hop hto
    exact hmut (show StoreOp.mutates num k (.batch n ops) from ⟨hnn, op, hop, hto⟩)
  | clearNs n =>
    rw [applyStoreOp] at happ
    injection happ with happ
    rw [← happ]
    exact clear_preserves_other_ns db n num k hwf hnum
      (fun hx => hmut (show StoreOp.mutates num k (.clearNs n) from hx.symm))

/-- A sequence of non-mutating storage-level operations preserves the
main-CF entry of user key k in namespace num. -/
theorem storeOps_preserve_key (ops : List StoreOp) (db db2 : DB) (num : Nat) (k : Bytes)
    (hnum : num < 65536) (hwf : ∀ op ∈ ops, StoreOp.wfNum op)
    (hmut : ∀ op ∈ ops, ¬ StoreOp.mutates num k op)
    (happ : applyStoreOps db ops = some db2) :
    cfGet db2.main (beBytes 2 num ++ k) = cfGet db.main (beBytes 2 num ++ k) := by
  induction ops generalizing db with
  | nil =>
    simp [applyStoreOps] at happ
    rw [← happ]
  | cons op rest ih =>
    rw [applyStoreOps] at happ
    obtain ⟨db1, h1, h2⟩ := Option.bind_eq_some.1 happ
    have hstep := storeOp_preserves_key op db db1 num k hnum
      (hwf op (List.mem_cons_self _ _)) (hmut op (List.mem_cons_self _ _)) h1
    exact ((ih db1 (fun o ho => hwf o (List.mem_cons_of_mem _ ho))
      (fun o ho => hmut o (List.mem_cons_of_mem _ ho)) h2).trans hstep)

/-- C4: round-trip.  After set(k, v) succeeds on namespace num, get(k) on
that namespace returns the byte-equal v, and it continues to do so across
any interleaved batches and clears that do not mutate k in num: operations
on other user keys, on the log, or on other namespaces leave it unchanged
until the next set/del of k (or clear) on num itself. -/
theorem set_get_round_trip (db db1 db2 : DB) (num : Nat) (k v : Bytes)
    (ops : List StoreOp) (hnum : num < 65536)
    (hwf : ∀ op ∈ ops, StoreOp.wfNum op)
    (hmut : ∀ op ∈ ops, ¬ StoreOp.mutates num k op)
    (hset : Storage.set db num k v = some db1)
    (hrun : applyStoreOps db1 ops = some db2) :
    Storage.get db2 num k = some (some v) := by
  unfold Storage.set at hset
  by_cases hk : k.length ≤ 510
  · have hbk : build_key num k = some (beBytes 2 num ++ k) := by
      unfold build_key
      rw [if_pos hk]
    simp [batch_write, applyBatchOp, hbk] at hset
    have hinit : cfGet db1.main (beBytes 2 num ++ k) = some v := by
      rw [← hset]
      exact cfGet_cfPut_self db.main _ v
    have hkeep := storeOps_preserve_key ops db1 db2 num k hnum hwf hmut hrun
    unfold Storage.get
    rw [hbk]
    simp [hkeep, hinit]
  · have hbk : build_key num k = none := by
      unfold build_key
      rw [if_neg hk]
    simp [batch_write, applyBatchOp, hbk] at hset

/-- Witness for C4: set key [1] to [2] in namespace 1, then a batch in
namespace 2 writing key [1] and a clear of namespace 0; get still returns
[2]. -/
theorem set_get_round_trip_witness :
    Storage.get
      (Storage.clear
        { main := cfPut (cfPut ([] : CF) (beBytes 2 1 ++ [1]) [2]) (beBytes 2 2 ++ [1]) [3],
          log := ([] : CF) } 0) 1 [1] = some (some [2]) :=
  set_get_round_trip { main := [], log := [] }
    { main := cfPut [] (beBytes 2 1 ++ [1]) [2], log := [] } _ 1 [1] [2]
    [StoreOp.batch 2 [BatchOp.set [1] [3]], StoreOp.clearNs 0]
    (by norm_num)
    (by
      intro op hop
      rcases List.mem_cons.1 hop with h | h
      · subst h
        exact (by norm_num : (2 : Nat) < 65536)
      rcases List.mem_cons.1 h with h2 | h2
      · subst h2
        exact (by norm_num : (0 : Nat) < 65536)
      · simp at h2)
    (by
      intro op hop
      rcases List.mem_cons.1 hop with h | h
      · subst h
        rintro ⟨hx, -⟩
        exact absurd hx (by norm_num)
      rcases List.mem_cons.1 h with h2 | h2
      · subst h2
        intro hx
        exact absurd (show (0 : Nat) = 1 from hx) (by norm_num)
      · simp at h2)
    rfl rfl

/-- C7: for every namespace, iterator() yields exactly the user keys
present in that namespace — (k, v) is yielded iff the main column family
holds value v at the physical key be16(num) followed by k, so each yielded
user key is the physical key with its first 2 bytes stripped — and the
yielded user keys are in strictly ascending lexicographic order, hence
each present key appears exactly once. -/
theorem iterator_sorted_complete (db : DB) (num : Nat) (hs : cfSorted db.main) :
    List.Pairwise (fun x y => lexLt x.1 y.1 = true) (Storage.iterator db num) ∧
    (∀ k v : Bytes, ((k, v) ∈ Storage.iterator db num ↔
      cfGet db.main (beBytes 2 num ++ k) = some v)) := by
  constructor
  · unfold Storage.iterator
    rw [List.pairwise_map]
    have hf : List.Pairwise (fun a b => lexLt a.1 b.1 = true)
        (db.main.filter fun e => decide (e.1.take 2 = beBytes 2 num)) :=
      List.Pairwise.sublist (List.filter_sublist _) hs
    refine hf.imp_of_mem ?_
    intro a b ha hb hab
    have ha2 : a.1.take 2 = beBytes 2 num := by
      have hx := (List.mem_filter.1 ha).2
      simpa using hx
    have hb2 : b.1.take 2 = beBytes 2 num := by
      have hx := (List.mem_filter.1 hb).2
      simpa using hx
    have hae : a.1 = beBytes 2 num ++ a.1.drop 2 := by
      conv_lhs => rw [← List.take_append_drop 2 a.1]
      rw [ha2]
    have hbe : b.1 = beBytes 2 num ++ b.1.drop 2 := by
      conv_lhs => rw [← List.take_append_drop 2 b.1]
      rw [hb2]
    rw [hae, hbe, lexLt_append_same] at hab
    exact hab
  · intro k v
    unfold Storage.iterator
    constructor
    · intro hmem
      obtain ⟨e, hef, he⟩ := List.mem_map.1 hmem
      obtain ⟨hedb, hcond⟩ := List.mem_filter.1 hef
      have he2 : e.1.take 2 = beBytes 2 num := by simpa using hcond
      have hk : e.1.drop 2 = k := congrArg Prod.fst he
      have hv : e.2 = v := congrArg Prod.snd he
      have hee : e.1 = beBytes 2 num ++ k := by
        conv_lhs => rw [← List.take_append_drop 2 e.1]
        rw [he2, hk]
      apply cfGet_eq_some_of_mem db.main (beBytes 2 num ++ k) v hs
      have heq : (beBytes 2 num ++ k, v) = e := by
        rw [← hee, ← hv]
      rw [heq]
      exact hedb
    · intro hget
      have hmem := mem_of_cfGet_eq_some db.main _ _ hget
      apply List.mem_map.2
      refine ⟨(beBytes 2 num ++ k, v), List.mem_filter.2 ⟨hmem, ?_⟩, ?_⟩
      · simp [List.take_left' (beBytes_length 2 num)]
      · simp [List.drop_left' (beBytes_length 2 num)]

/-- Main contents for the C7 witness: two keys of namespace 1 and one of
namespace 2, in ascending physical order. -/
def dbIter : DB :=
  { main := [(beBytes 2 1 ++ [1], [9]), (beBytes 2 1 ++ [3], [8]), (beBytes 2 2 ++ [2], [7])],
    log := [] }

/-- Witness for C7 on a concrete store: the namespace-1 cursor yields its
user keys in strictly ascending order. -/
theorem iterator_sorted_complete_witness :
    List.Pairwise (fun x y => lexLt x.1 y.1 = true) (Storage.iterator dbIter 1) :=
  (iterator_sorted_complete dbIter 1 (by unfold cfSorted; decide)).1

/-- Any log entry passing the log_iterator range filter for namespace num,
prefix p and start s (with p + 1 in u64 range) has physical key
build_log_key num p s2 for some sequence s2 at or past s. -/
theorem log_filter_shape (db : DB) (num p s : Nat) (hnum : num < 65536)
    (hp1 : p + 1 < 2 ^ 64) (hs : s < 2 ^ 64) (hwf : logWf db.log)
    (e : Bytes × Bytes) (he : e ∈ db.log)
    (hc : (lexLe (build_log_key num p s) e.1 &&
        lexLt e.1 (beBytes 2 num ++ beBytes 8 (p + 1))) = true) :
    ∃ s2, s2 < 2 ^ 64 ∧ s ≤ s2 ∧ e.1 = build_log_key num p s2 := by
  obtain ⟨n2, p2, s2, hb1, hb2, hb3, hkey⟩ := hwf e he
  rw [hkey, Bool.and_eq_true] at hc
  obtain ⟨h1, h2⟩ := hc
  rw [lexLe, Bool.not_eq_true'] at h1
  have hlt := logKey_lt_iff n2 p2 s2 num p s hb1 hnum hb2 (by omega) hb3 hs
  have hub := logKey_lt_ub_iff n2 p2 s2 num (p + 1) hb1 hnum hb2 hp1 hb3
  have hno : ¬(n2 < num ∨ (n2 = num ∧ p2 < p) ∨ (n2 = num ∧ p2 = p ∧ s2 < s)) := by
    intro hx
    rw [← hlt] at hx
    rw [h1] at hx
    exact Bool.false_ne_true hx
  have hyes := hub.1 h2
  have hglue : n2 = num ∧ p2 = p ∧ s ≤ s2 := by omega
  obtain ⟨q1, q2, q3⟩ := hglue
  subst q1; subst q2
  exact ⟨s2, hb3, q3, hkey⟩

/-- C3 amended: for every namespace and start sequence s, and every prefix
p with p + 1 in u64 range, log_iterator(p, s) yields exactly those log
entries (p, s2) of that namespace with s2 at or past s, in strictly
ascending s2, and yields no entry whose prefix differs from p (termination
is strictly before (p + 1, 0)); for the maximal prefix the upper-bound
computation p + 1 overflows instead. -/
theorem log_iterator_range (db : DB) (num p s : Nat)
    (hnum : num < 65536) (hp1 : p + 1 < 2 ^ 64) (hs : s < 2 ^ 64)
    (hsorted : cfSorted db.log) (hwf : logWf db.log) :
    (∀ q s2 v2, ((q, s2), v2) ∈ Storage.log_iterator db num p s → q = p ∧ s ≤ s2) ∧
    (∀ s2 v2, s2 < 2 ^ 64 →
      (((p, s2), v2) ∈ Storage.log_iterator db num p s ↔
        (s ≤ s2 ∧ Storage.log_get db num p s2 = some v2))) ∧
    List.Pairwise (fun x y => x.1.2 < y.1.2) (Storage.log_iterator db num p s) := by
  have hp : p < 2 ^ 64 := by omega
  have e8 : (2 : Nat) ^ 64 = 256 ^ 8 := by norm_num
  refine ⟨?_, ?_, ?_⟩
  · intro q s2 v2 hmem
    unfold Storage.log_iterator at hmem
    obtain ⟨e, hef, he⟩ := List.mem_map.1 hmem
    obtain ⟨hedb, hcond⟩ := List.mem_filter.1 hef
    obtain ⟨s3, hs3, hss3, hkey⟩ := log_filter_shape db num p s hnum hp1 hs hwf e hedb hcond
    have hd1 : beVal ((e.1.drop 2).take 8) = p := by
      rw [hkey, (decode_build_log_key num p s3).1, beVal_beBytes, Nat.mod_eq_of_lt (e8 ▸ hp)]
    have hd2 : beVal (e.1.drop 10) = s3 := by
      rw [hkey, (decode_build_log_key num p s3).2, beVal_beBytes, Nat.mod_eq_of_lt (e8 ▸ hs3)]
    have hqq : beVal ((e.1.drop 2).take 8) = q := congrArg (fun x => x.1.1) he
    have hss : beVal (e.1.drop 10) = s2 := congrArg (fun x => x.1.2) he
    constructor
    · rw [← hqq, hd1]
    · rw [← hss, hd2]
      exact hss3
  · intro s2 v2 hs2
    constructor
    · intro hmem
      unfold Storage.log_iterator at hmem
      obtain ⟨e, hef, he⟩ := List.mem_map.1 hmem
      obtain ⟨hedb, hcond⟩ := List.mem_filter.1 hef
      obtain ⟨s3, hs3, hss3, hkey⟩ := log_filter_shape db num p s hnum hp1 hs hwf e hedb hcond
      have hd2 : beVal (e.1.drop 10) = s3 := by
        rw [hkey, (decode_build_log_key num p s3).2, beVal_beBytes, Nat.mod_eq_of_lt (e8 ▸ hs3)]
      have hss : beVal (e.1.drop 10) = s2 := congrArg (fun x => x.1.2) he
      have hv : e.2 = v2 := congrArg Prod.snd he
      have hs23 : s3 = s2 := by rw [← hd2, hss]
      subst hs23
      refine ⟨hss3, ?_⟩
      unfold Storage.log_get
      apply cfGet_eq_some_of_mem db.log _ _ hsorted
      have heq : (build_log_key num p s3, v2) = e := by
        rw [← hkey, ← hv]
      rw [heq]
      exact hedb
    · rintro ⟨hss2, hget⟩
      unfold Storage.log_get at hget
      have hmem := mem_of_cfGet_eq_some db.log _ _ hget
      unfold Storage.log_iterator
      apply List.mem_map.2
      refine ⟨(build_log_key num p s2, v2), List.mem_filter.2 ⟨hmem, ?_⟩, ?_⟩
      · rw [Bool.and_eq_true]
        constructor
        · rw [lexLe, Bool.not_eq_true']
          rw [Bool.eq_false_iff]
          intro hx
          have hd := (logKey_lt_iff num p s2 num p s hnum hnum hp hp hs2 hs).1 hx
          omega
        · apply (logKey_lt_ub_iff num p s2 num (p + 1) hnum hnum hp hp1 hs2).2
          right
          exact ⟨rfl, by omega⟩
      · rw [(decode_build_log_key num p s2).1, (decode_build_log_key num p s2).2,
          beVal_beBytes, beVal_beBytes,
          Nat.mod_eq_of_lt (e8 ▸ hp), Nat.mod_eq_of_lt (e8 ▸ hs2)]
  · unfold Storage.log_iterator
    rw [List.pairwise_map]
    have hf : List.Pairwise (fun a b => lexLt a.1 b.1 = true)
        (db.log.filter fun e =>
          lexLe (build_log_key num p s) e.1 &&
            lexLt e.1 (beBytes 2 num ++ beBytes 8 (p + 1))) :=
      List.Pairwise.sublist (List.filter_sublist _) hsorted
    refine hf.imp_of_mem ?_
    intro a b ha hb hab
    obtain ⟨hadb, hacond⟩ := List.mem_filter.1 ha
    obtain ⟨hbdb, hbcond⟩ := List.mem_filter.1 hb
    obtain ⟨sa, hsa, hssa, hka⟩ := log_filter_shape db num p s hnum hp1 hs hwf a hadb hacond
    obtain ⟨sb, hsb, hssb, hkb⟩ := log_filter_shape db num p s hnum hp1 hs hwf b hbdb hbcond
    have hda : beVal (a.1.drop 10) = sa := by
      rw [hka, (decode_build_log_key num p sa).2, beVal_beBytes, Nat.mod_eq_of_lt (e8 ▸ hsa)]
    have hdb2 : beVal (b.1.drop 10) = sb := by
      rw [hkb, (decode_build_log_key num p sb).2, beVal_beBytes, Nat.mod_eq_of_lt (e8 ▸ hsb)]
    rw [hka, hkb] at hab
    have hdisj := (logKey_lt_iff num p sa num p sb hnum hnum hp hp hsa hsb).1 hab
    have hlt : sa < sb := by omega
    show beVal (a.1.drop 10) < beVal (b.1.drop 10)
    rw [hda, hdb2]
    exact hlt

/-- Log contents for the C3 counterexample: one entry of namespace 0 at
the maximal u64 prefix with sequence 0. -/
def dbLogLast : DB :=
  { main := [], log := [(build_log_key 0 (2 ^ 64 - 1) 0, [7])] }

/-- C3 counterexample: for the maximal prefix the claim fails.  The store
holds the entry (2 pow 64 - 1, 0) with value [7], and its sequence 0 is at
or past the start 0, so the claim requires log_iterator to yield it; the
upper-bound computation p + 1 wraps to prefix 0 (a debug build panics) and
the iterator yields nothing. -/
theorem log_iterator_max_prefix_missing :
    Storage.log_iterator dbLogLast 0 (2 ^ 64 - 1) 0 = [] ∧
    Storage.log_get dbLogLast 0 (2 ^ 64 - 1) 0 = some [7] := by
  constructor <;> rfl

/-- Log contents for the C3 witness: one entry of namespace 1 at prefix 3,
sequence 5. -/
def dbLogWit : DB :=
  { main := [], log := [(build_log_key 1 3 5, [7])] }

/-- Witness for the amended C3 on a concrete store: the yielded sequences
are strictly ascending. -/
theorem log_iterator_range_witness :
    List.Pairwise (fun x y => x.1.2 < y.1.2) (Storage.log_iterator dbLogWit 1 3 4) :=
  (log_iterator_range dbLogWit 1 3 4 (by norm_num) (by norm_num) (by norm_num)
    (by unfold cfSorted; decide)
    (by
      intro e he
      simp only [dbLogWit, List.mem_singleton] at he
      subst he
      exact ⟨1, 3, 5, by norm_num, by norm_num, by norm_num, rfl⟩)).2.2
